import Mathlib

/-!
Verification of the Veritas Foresight narrative resonance engine
(`foresight_engine.py`, with the temperature clamp of `foresight_app.py`).

Shallow embedding conventions:
  - Python floats are modelled as exact rationals; all numeric literals of the
    source (0.05, 0.08, 0.25, 0.15, 0.2, 3.5) are exact in this model.
  - Python string lowercasing is modelled by the ASCII case mapping
    `Char.toLower` applied character by character; substring containment
    (the Python `in` operator on strings) is modelled by list infix
    containment on the character data.
  - Randomness is passed in explicitly: each call that the source makes to
    `random.random()` / `random.uniform` / `random.choice` receives its draw
    as a parameter, so theorems quantify over every possible draw.
  - Fallible operations (the `random.choices` call in `collapse`, the
    `random.choice` calls in `generate_feedback`) return `Except`/`Option`.
-/

/-- Embeds the dataclass `Future` of `foresight_engine.py`. -/
structure Future where
  name : String
  keywords : List String
  core_logic : String
  probability : ℚ := 1
  description : String := ""
deriving DecidableEq

/-- Embeds `ForesightEngine.DEFAULT_FUTURES` (the five built-in scenarios). -/
def DEFAULT_FUTURES : List Future :=
  [{ name := "Tech-Acceleration",
     keywords := ["ai", "quantum", "singularity", "agi", "automation",
                  "intelligence", "neural", "model", "compute", "data"],
     core_logic := "technology accelerates beyond human control",
     description := "Rapid technological acceleration, AI dominance, post-human transition",
     probability := 1 },
   { name := "Green-Symbiosis",
     keywords := ["climate", "renewable", "sustainable", "ecology", "green",
                  "solar", "energy", "nature", "carbon", "transition"],
     core_logic := "humanity cooperates with natural systems",
     description := "Ecological transition, distributed energy, human-nature balance",
     probability := 1 },
   { name := "Control-Consolidation",
     keywords := ["surveillance", "control", "authoritarian", "restrict",
                  "censor", "monitor", "power", "government", "limit", "ban"],
     core_logic := "centralized control tightens over information and people",
     description := "Surveillance expansion, information control, authoritarian consolidation",
     probability := 1 },
   { name := "Fragmentation",
     keywords := ["war", "conflict", "crisis", "collapse", "protest",
                  "revolution", "divide", "polariz", "chaos", "instability"],
     core_logic := "global systems fragment into competing blocs",
     description := "Geopolitical fragmentation, resource conflicts, institutional collapse",
     probability := 1 },
   { name := "Resilient-Adaptation",
     keywords := ["community", "local", "resilient", "adapt", "cooperat",
                  "decentraliz", "mutual", "network", "grassroot", "bottom-up"],
     core_logic := "communities adapt through decentralized cooperation",
     description := "Bottom-up resilience, community networks, adaptive institutions",
     probability := 1 }]

/-- The running total `total = sum(f.probability for f in self.futures)`
computed at the top of `ForesightEngine._normalize`. -/
def probTotal (futures : List Future) : ℚ :=
  (futures.map (fun f => f.probability)).sum

/-- Embeds `ForesightEngine._normalize`: rescale so probabilities sum to 1;
if the total is not positive, assign the uniform value `1.0 / n` to each
entry (for an empty list the Python loop body never runs, matching the
empty map here). -/
def normalizeFutures (futures : List Future) : List Future :=
  if probTotal futures ≤ 0 then
    futures.map (fun f => { f with probability := 1 / (futures.length : ℚ) })
  else
    futures.map (fun f => { f with probability := f.probability / probTotal futures })

/-- Embeds the future-list initialisation of `ForesightEngine.__init__`:
`futures or self.DEFAULT_FUTURES` treats both `None` and the empty list as
falsy, so an empty argument falls back to the five defaults; the copies made
by `Future(**vars(f))` are identities in this value model; `_normalize` runs
immediately. -/
def engineInit (futures : List Future) : List Future :=
  normalizeFutures (if futures.isEmpty then DEFAULT_FUTURES else futures)

/-- Models the Python substring operator `needle in hay` as infix
containment on the character lists. -/
def strContains (hay needle : String) : Bool :=
  decide (needle.data <:+: hay.data)

/-- Models the Python `str.lower()` (ASCII case mapping, applied
character by character). -/
def strLower (s : String) : String := String.mk (s.data.map Char.toLower)

/-- Helper for the zero-argument `str.split()` of Python: walk the
characters, accumulating the current word in reverse; whitespace runs
produce no empty pieces. -/
def pySplitWhitespaceAux : List Char → List Char → List String
  | [], cur => if cur = [] then [] else [String.mk cur.reverse]
  | c :: cs, cur =>
    if c.isWhitespace then
      if cur = [] then pySplitWhitespaceAux cs []
      else String.mk cur.reverse :: pySplitWhitespaceAux cs []
    else pySplitWhitespaceAux cs (c :: cur)

/-- Models the zero-argument `str.split()` of Python: split on runs of
whitespace and drop the empty pieces. -/
def pySplitWhitespace (s : String) : List String := pySplitWhitespaceAux s.data []

/-- The count `keyword_hits = sum(1 for kw in future.keywords if kw.lower()
in arg_lower)` from `ForesightEngine.calculate_resonance`. -/
def keywordHits (future : Future) (argLower : String) : Nat :=
  (future.keywords.filter (fun kw => strContains argLower (strLower kw))).length

/-- The count `field_hits = sum(1 for kw in future.keywords for topic in
field_lower if kw.lower() in topic or topic in kw.lower())` from
`ForesightEngine.calculate_resonance` (bidirectional substring test). -/
def fieldHits (future : Future) (fieldLower : List String) : Nat :=
  (future.keywords.map (fun kw =>
    (fieldLower.filter (fun topic =>
      strContains topic (strLower kw) || strContains (strLower kw) topic)).length)).sum

/-- The list `negation_patterns` built in `calculate_resonance`: the phrases
`not w`, `no w` and `against w` for every whitespace-separated word `w` of
the lowercased `core_logic`. -/
def negationPatterns (future : Future) : List String :=
  (pySplitWhitespace (strLower future.core_logic)).map (fun w => "not " ++ w) ++
  (pySplitWhitespace (strLower future.core_logic)).map (fun w => "no " ++ w) ++
  (pySplitWhitespace (strLower future.core_logic)).map (fun w => "against " ++ w)

/-- The test `any(pat in arg_lower for pat in negation_patterns)` from
`calculate_resonance`. -/
def hasContradiction (future : Future) (argLower : String) : Bool :=
  (negationPatterns future).any (fun pat => strContains argLower pat)

/-- Embeds `ForesightEngine.calculate_resonance`. The source computes the
base resonance and field boost before the contradiction check, but returns
the fixed suppression multiplier 0.2 from the contradiction branch without
using them, so the pure terms are written inline in each branch here. -/
def calculateResonance (future : Future) (argument : String)
    (field_context : List String) : ℚ :=
  if hasContradiction future (strLower argument) then 2/10
  else
    min ((1 + (keywordHits future (strLower argument) : ℚ) * (25/100)) *
      (1 + (fieldHits future (field_context.map strLower) : ℚ) * (15/100)))
      (35/10)

/-- Embeds the temperature clamp of `foresight_app.simulate` and
`foresight_app.battle`: `temperature = max(0.1, min(temperature, 2.0))`. -/
def clampTemperature (t : ℚ) : ℚ := max (1/10) (min t 2)

/-- The parameter names of `ForesightEngine.run` as staged in
`foresight_engine.py` (`def run(self, argument, steps=5,
field_context=None)`): the keyword names a call may bind; `self` binds
positionally through the bound method. -/
def runParameters : List String := ["argument", "steps", "field_context"]

/-- CPython binds every keyword argument of a call against the parameter
names of the callee and raises TypeError (got an unexpected keyword
argument) for each name that does not occur; this lists the offending
keywords of a call to the staged `run`. -/
def runCallUnexpectedKeywords (kwargs : List String) : List String :=
  kwargs.filter (fun k => !(runParameters.contains k))

/-- The keyword arguments of the call
`engine.run(argument, steps=steps, field_context=field_topics,
temperature=temperature)` made by `foresight_app.simulate`. -/
def simulateRunCallKeywords : List String :=
  ["steps", "field_context", "temperature"]

/-- The method names defined by the `ForesightEngine` class body as staged
in `foresight_engine.py`; Python attribute lookup on an engine instance
raises AttributeError for any method name outside this list (the only
instance attributes are futures, history and iteration, set in the
constructor). -/
def engineMethods : List String :=
  ["__init__", "_normalize", "calculate_resonance", "match_headlines",
   "apply_argument", "collapse", "generate_feedback", "step", "run",
   "reset", "get_state", "_calculate_entropy"]

/-- The attribute name looked up by the call `engine.battle(arg_a, arg_b,
rounds=rounds, field_context=field_topics, temperature=temperature)` in
`foresight_app.battle`. -/
def battleCallAttribute : String := "battle"

/-- The running partial sums produced by `itertools.accumulate`, used by
CPython `random.choices` to build `cum_weights` from the weights list. -/
def accumulate (acc : ℚ) : List ℚ → List ℚ
  | [] => []
  | w :: ws => (acc + w) :: accumulate (acc + w) ws

/-- `cum_weights = list(_accumulate(weights))` inside `random.choices`. -/
def cumWeights (ws : List ℚ) : List ℚ := accumulate 0 ws

/-- The right-insertion-point binary search `bisect.bisect(a, x, lo, hi)`
that `random.choices` uses to turn the uniform draw into an index
(CPython `bisect_right`). -/
def bisectRight (a : List ℚ) (x : ℚ) (lo hi : Nat) : Nat :=
  if h : lo < hi then
    if x < a.getD ((lo + hi) / 2) 0 then bisectRight a x lo ((lo + hi) / 2)
    else bisectRight a x ((lo + hi) / 2 + 1) hi
  else lo
termination_by hi - lo
decreasing_by all_goals omega

/-- The value `cum_weights[-1]` read by `random.choices` (the total weight);
indexing an empty list is handled separately by the caller below. -/
def cumTotal (futures : List Future) : ℚ :=
  (cumWeights (futures.map (fun f => f.probability))).getD (futures.length - 1) 0

/-- Embeds `ForesightEngine.collapse` at index level: the call
`random.choices(self.futures, weights=[f.probability for f in self.futures],
k=1)[0]` with the CPython (3.9 and later) semantics of `random.choices`:
`cum_weights[-1]` raises IndexError on an empty population; a total that is
not positive raises ValueError; otherwise the selected index is
`bisect(cum_weights, random() * total, 0, n - 1)`. The parameter `r` is the
`random.random()` draw in the half-open unit interval. -/
def collapseIndex (futures : List Future) (r : ℚ) : Except String Nat :=
  if futures.length = 0 then Except.error "IndexError: list index out of range"
  else if cumTotal futures ≤ 0 then
    Except.error "ValueError: Total of weights must be greater than zero"
  else Except.ok (bisectRight (cumWeights (futures.map (fun f => f.probability)))
    (r * cumTotal futures) 0 (futures.length - 1))

/-- Placeholder scenario used only to give list indexing a default; every
index produced by `collapseIndex` is in range, so it is never selected. -/
def dummyFuture : Future := { name := "", keywords := [], core_logic := "" }

/-- Embeds `ForesightEngine.collapse`: the selected scenario itself. -/
def collapse (futures : List Future) (r : ℚ) : Except String Future :=
  Except.map (fun i => futures.getD i dummyFuture) (collapseIndex futures r)

/-- Code-point lexicographic comparison of character lists: the semantics
of the Python string less-than that tuple comparison falls back to. -/
def charListLt : List Char → List Char → Bool
  | [], [] => false
  | [], _ :: _ => true
  | _ :: _, [] => false
  | a :: as, b :: bs =>
    if a.toNat < b.toNat then true
    else if b.toNat < a.toNat then false
    else charListLt as bs

/-- Python string comparison (by code points). -/
def strLt (a b : String) : Bool := charListLt a.data b.data

/-- The descending tuple comparison realised by `matched.sort(reverse=True)`
in `ForesightEngine.match_headlines`: Python compares the
(hit count, headline) tuples lexicographically, so ties in hit count are
broken by comparing the headline strings themselves. Tuples that compare
equal here are identical, so the stable descending sort of the source is
fully determined by this non-strict comparison. -/
def tupleGe (a b : Nat × String) : Bool :=
  decide (b.1 < a.1) || (a.1 == b.1 && !(strLt a.2 b.2))

instance : IsTotal (Nat × String) (fun a b => tupleGe a b = true) where
  total a b := by
    have asymm : ∀ as bs : List Char,
        charListLt as bs = true → charListLt bs as = false := by
      intro as
      induction as with
      | nil =>
        intro bs h
        cases bs with
        | nil => exact absurd h (by simp [charListLt])
        | cons b bs => rfl
      | cons a as ih =>
        intro bs h
        cases bs with
        | nil => exact absurd h (by simp [charListLt])
        | cons b bs =>
          simp only [charListLt] at h ⊢
          by_cases h1 : a.toNat < b.toNat
          · rw [if_neg (by omega), if_pos h1]
          · by_cases h2 : b.toNat < a.toNat
            · rw [if_neg h1, if_pos h2] at h
              exact absurd h (by simp)
            · rw [if_neg h1, if_neg h2] at h
              rw [if_neg h2, if_neg h1]
              exact ih bs h
    simp only [tupleGe, Bool.or_eq_true, decide_eq_true_eq, Bool.and_eq_true,
      beq_iff_eq, Bool.not_eq_true']
    rcases Nat.lt_trichotomy a.1 b.1 with h | h | h
    · exact Or.inr (Or.inl h)
    · by_cases hs : strLt a.2 b.2 = true
      · exact Or.inr (Or.inr ⟨h.symm, asymm _ _ hs⟩)
      · exact Or.inl (Or.inr ⟨h, by simpa using hs⟩)
    · exact Or.inl (Or.inl h)

instance : IsTrans (Nat × String) (fun a b => tupleGe a b = true) where
  trans a b c hab hbc := by
    have transf : ∀ as bs cs : List Char, charListLt as bs = false →
        charListLt bs cs = false → charListLt as cs = false := by
      intro as
      induction as with
      | nil =>
        intro bs cs h1 h2
        cases bs with
        | nil =>
          cases cs with
          | nil => rfl
          | cons c cs => exact absurd h2 (by simp [charListLt])
        | cons b bs => exact absurd h1 (by simp [charListLt])
      | cons a as ih =>
        intro bs cs h1 h2
        cases bs with
        | nil =>
          cases cs with
          | nil => rfl
          | cons c cs => exact absurd h2 (by simp [charListLt])
        | cons b bs =>
          cases cs with
          | nil => rfl
          | cons c cs =>
            simp only [charListLt] at h1 h2 ⊢
            have hab1 : ¬ a.toNat < b.toNat := by
              intro hx
              rw [if_pos hx] at h1
              exact absurd h1 (by simp)
            have hbc1 : ¬ b.toNat < c.toNat := by
              intro hx
              rw [if_pos hx] at h2
              exact absurd h2 (by simp)
            rw [if_neg (by omega)]
            by_cases hca : c.toNat < a.toNat
            · rw [if_pos hca]
            · rw [if_neg hca]
              rw [if_neg hab1, if_neg (by omega)] at h1
              rw [if_neg hbc1, if_neg (by omega)] at h2
              exact ih bs cs h1 h2
    simp only [tupleGe, Bool.or_eq_true, decide_eq_true_eq, Bool.and_eq_true,
      beq_iff_eq, Bool.not_eq_true'] at hab hbc ⊢
    rcases hab with h1 | ⟨h1, hs1⟩ <;> rcases hbc with h2 | ⟨h2, hs2⟩
    · exact Or.inl (by omega)
    · exact Or.inl (by omega)
    · exact Or.inl (by omega)
    · exact Or.inr ⟨by omega, transf _ _ _ hs1 hs2⟩

/-- The per-headline hit count computed inside `match_headlines`:
`hits = sum(1 for kw in future.keywords if kw.lower() in h_lower)`. -/
def headlineHits (future : Future) (h : String) : Nat :=
  (future.keywords.filter (fun kw => strContains (strLower h) (strLower kw))).length

/-- The `matched` list of `match_headlines`: every headline with at least
one keyword hit, paired with its hit count. -/
def matchedPairs (future : Future) (headlines : List String) : List (Nat × String) :=
  headlines.filterMap (fun h =>
    if 1 ≤ headlineHits future h then some (headlineHits future h, h) else none)

/-- Embeds `ForesightEngine.match_headlines`: empty input short-circuits;
otherwise sort the (hits, headline) pairs descending
(`matched.sort(reverse=True)`) and return the headline components of the
first three. -/
def matchHeadlines (future : Future) (headlines : List String) : List String :=
  if headlines.isEmpty then []
  else
    (((matchedPairs future headlines).insertionSort
        (fun a b => tupleGe a b = true)).take 3).map (fun p => p.2)

/-- Embeds the dataclass `ResonanceSnapshot`. The wall-clock `timestamp`
field is omitted (untestable real time); the probability dictionaries are
association lists in engine order with values rounded to four decimal
places, as in the source. -/
structure ResonanceSnapshot where
  iteration : Nat
  argument : String
  probabilities_before : List (String × ℚ)
  realized_future : String
  feedback_argument : String
  probabilities_after : List (String × ℚ)
  field_context : List String
deriving DecidableEq

/-- Python `round(x, 4)` modelled as nearest-integer rounding at four
decimal places on exact rationals (the binary-float half-to-even detail is
immaterial to every claim treated here). -/
def round4 (q : ℚ) : ℚ := ((round (q * 10000) : ℤ) : ℚ) / 10000

/-- The rounded `(name, probability)` entry used by the snapshot
dictionaries. -/
def probPair (f : Future) : String × ℚ := (f.name, round4 f.probability)

/-- The mutable part of a `ForesightEngine` instance: the futures list, the
snapshot history and the iteration counter. -/
structure EngineState where
  futures : List Future
  history : List ResonanceSnapshot
  iteration : Nat

/-- `random.uniform(a, b) = a + (b - a) * random()` for a unit draw `r`. -/
def pyUniform (a b r : ℚ) : ℚ := a + (b - a) * r

/-- Embeds `ForesightEngine.apply_argument`: every future probability is
multiplied by its resonance times the noise factor
`1.0 + random.uniform(-noise, noise)` (one fresh unit draw per future,
supplied by `draws`), then `_normalize` runs. -/
def applyArgument (futures : List Future) (argument : String)
    (field_context : List String) (noise : ℚ) (draws : Nat → ℚ) : List Future :=
  normalizeFutures (futures.mapIdx (fun i f =>
    { f with probability :=
        f.probability * (calculateResonance f argument field_context *
          (1 + pyUniform (-noise) noise (draws i))) }))

/-- The random draws consumed by one `step` call: the per-future uniform
draws of the external-argument application, the collapse draw, the two
`random.choice` index draws of `generate_feedback` (whose unused
`random.random()` consumes entropy but affects nothing), and the per-future
uniform draws of the feedback application. -/
structure StepRandom where
  argDraws : Nat → ℚ
  collapseDraw : ℚ
  kwChoice : Nat
  tmplChoice : Nat
  fbDraws : Nat → ℚ

/-- The four feedback phrase templates of `generate_feedback`. -/
def feedbackTemplates (realized : Future) (kw : String) : List String :=
  ["The trend toward " ++ realized.core_logic ++ " is accelerating — focus on " ++ kw,
   "Evidence of " ++ kw ++ " confirms the " ++ realized.name ++ " trajectory",
   "Prioritize " ++ kw ++ " and related strategies for " ++ realized.name,
   "The " ++ realized.name ++ " scenario is gaining momentum through " ++ kw]

/-- Embeds `ForesightEngine.generate_feedback`: `random.choice` over the
keywords, then `random.choice` over the four templates. `random.choice`
raises IndexError on an empty sequence, hence the `Option`; the drawn
indices are modelled as arbitrary naturals reduced modulo the sequence
length. -/
def generateFeedback (realized : Future) (kwChoice tmplChoice : Nat) : Option String :=
  if realized.keywords.isEmpty then none
  else
    some ((feedbackTemplates realized
      (realized.keywords.getD (kwChoice % realized.keywords.length) "")).getD
      (tmplChoice % 4) "")

/-- The Python truthiness fallback `argument or '(internal feedback only)'`
of `step`: both `None` and the empty string are falsy and select the
sentinel. -/
def pyOrString (a : Option String) (dflt : String) : String :=
  match a with
  | none => dflt
  | some s => if s = "" then dflt else s

/-- Whether `if argument:` fires in `step`: `None` and `""` are falsy. -/
def pyTruthy (a : Option String) : Bool :=
  match a with
  | none => false
  | some s => decide (s ≠ "")

/-- An uncaught Python exception inside a pure pipeline is modelled by
dropping to `none`. -/
def exceptToOption : Except String α → Option α
  | Except.error _ => none
  | Except.ok a => some a

/-- The probability field after the optional external-argument application
at the top of `step` (noise 0.05). -/
def stepFutures (st : EngineState) (argument : Option String)
    (field_context : List String) (rnd : StepRandom) : List Future :=
  if pyTruthy argument then
    applyArgument st.futures (pyOrString argument "") field_context (5/100) rnd.argDraws
  else st.futures

/-- The snapshot built at the end of `step`. -/
def stepSnapshot (st : EngineState) (argument : Option String)
    (field_context : List String) (rnd : StepRandom) (realized : Future)
    (feedback : String) : ResonanceSnapshot :=
  { iteration := st.iteration + 1
    argument := pyOrString argument "(internal feedback only)"
    probabilities_before := (stepFutures st argument field_context rnd).map probPair
    realized_future := realized.name
    feedback_argument := feedback
    probabilities_after :=
      (applyArgument (stepFutures st argument field_context rnd) feedback
        field_context (8/100) rnd.fbDraws).map probPair
    field_context := field_context }

/-- Embeds `ForesightEngine.step`: increment the iteration counter, apply
the external argument if truthy (noise 0.05), record the probabilities,
collapse, generate feedback and apply it unconditionally (noise 0.08),
record again, and append the snapshot to the history. -/
def step (st : EngineState) (argument : Option String)
    (field_context : List String) (rnd : StepRandom) :
    Option (ResonanceSnapshot × EngineState) :=
  (exceptToOption (collapse (stepFutures st argument field_context rnd)
      rnd.collapseDraw)).bind (fun realized =>
    (generateFeedback realized rnd.kwChoice rnd.tmplChoice).map (fun feedback =>
      (stepSnapshot st argument field_context rnd realized feedback,
       { futures := applyArgument (stepFutures st argument field_context rnd)
           feedback field_context (8/100) rnd.fbDraws
         history := st.history ++ [stepSnapshot st argument field_context rnd realized feedback]
         iteration := st.iteration + 1 })))

/-- The loop of `run`: `for i in range(steps): arg = argument if i == 0 else
None; results.append(self.step(arg, field_context))`. The second argument
carries the argument for the next call (the external one only initially);
the i-th call consumes the draw bundle `rnds i`. -/
def runAux (field_context : List String) (rnds : Nat → StepRandom) :
    EngineState → Option String → Nat → Nat →
    Option (List ResonanceSnapshot × EngineState)
  | st, _, _, 0 => some ([], st)
  | st, arg, i, Nat.succ n =>
    match step st arg field_context (rnds i) with
    | none => none
    | some (snap, st2) =>
      match runAux field_context rnds st2 none (i + 1) n with
      | none => none
      | some (snaps, stf) => some (snap :: snaps, stf)

/-- Embeds `ForesightEngine.run`: `step` is called `steps` times and only
the first call receives the external argument. -/
def runEngine (st : EngineState) (argument : String) (steps : Nat)
    (field_context : List String) (rnds : Nat → StepRandom) :
    Option (List ResonanceSnapshot × EngineState) :=
  runAux field_context rnds st (some argument) 0 steps

/-- Placeholder snapshot, used only as the default of list indexing in the
statements below; every index used is in range. -/
def dummySnapshot : ResonanceSnapshot :=
  { iteration := 0, argument := "", probabilities_before := [],
    realized_future := "", feedback_argument := "", probabilities_after := [],
    field_context := [] }

theorem list_sum_map_div (l : List ℚ) (c : ℚ) :
    (l.map (fun x => x / c)).sum = l.sum / c := by
  induction l with
  | nil => simp
  | cons x xs ih => simp [ih, div_add_div_same]

theorem normalizeFutures_length (futures : List Future) :
    (normalizeFutures futures).length = futures.length := by
  unfold normalizeFutures
  split <;> simp

theorem normalizeFutures_sum (futures : List Future) (h : futures ≠ []) :
    ((normalizeFutures futures).map (fun f => f.probability)).sum = 1 := by
  unfold normalizeFutures
  have hn : (0 : ℚ) < (futures.length : ℚ) := by
    have := List.length_pos.mpr h
    exact_mod_cast this
  split
  · rw [List.map_map]
    have hc : ((fun f => f.probability) ∘
        fun f => { f with probability := 1 / (futures.length : ℚ) }) =
        Function.const Future (1 / (futures.length : ℚ)) := rfl
    rw [hc, List.map_const, List.sum_replicate, nsmul_eq_mul,
      mul_one_div, div_self (ne_of_gt hn)]
  · rename_i htot
    push_neg at htot
    rw [List.map_map]
    have hcomp : ((fun f => f.probability) ∘
        fun (f : Future) => { f with probability := f.probability / probTotal futures }) =
        (fun x => x / probTotal futures) ∘ (fun (f : Future) => f.probability) := rfl
    rw [hcomp, ← List.map_map, list_sum_map_div]
    exact div_self (ne_of_gt htot)

theorem normalizeFutures_uniform (futures : List Future)
    (h : probTotal futures ≤ 0) :
    ∀ g ∈ normalizeFutures futures, g.probability = 1 / (futures.length : ℚ) := by
  intro g hg
  unfold normalizeFutures at hg
  rw [if_pos h] at hg
  obtain ⟨f, _, rfl⟩ := List.mem_map.mp hg
  rfl

/-- C1: after `_normalize` on a non-empty scenario list the probabilities
sum to exactly 1; when the pre-normalization total is not positive every
scenario receives the uniform value `1 / n`; and on an empty list
`_normalize` returns without touching anything (and without raising). -/
theorem normalize_sum_one_and_uniform_fallback (futures : List Future) :
    (futures ≠ [] →
      ((normalizeFutures futures).map (fun f => f.probability)).sum = 1) ∧
    (probTotal futures ≤ 0 →
      ∀ g ∈ normalizeFutures futures, g.probability = 1 / (futures.length : ℚ)) ∧
    normalizeFutures [] = [] :=
  ⟨normalizeFutures_sum futures, normalizeFutures_uniform futures, rfl⟩

/-- Witness for C1 at a concrete two-scenario engine whose pre-normalization
total is 4: probabilities 3/4 and 1/4 sum to 1, and the uniform branch fires
on a pair of zeroed scenarios. -/
theorem normalize_sum_one_and_uniform_fallback_witness :
    ((normalizeFutures
        [{ name := "A", keywords := ["a"], core_logic := "a", probability := 3 },
         { name := "B", keywords := ["b"], core_logic := "b", probability := 1 }]).map
      (fun f => f.probability)).sum = 1 ∧
    (∀ g ∈ normalizeFutures
        [{ name := "A", keywords := ["a"], core_logic := "a", probability := 0 },
         { name := "B", keywords := ["b"], core_logic := "b", probability := 0 }],
      g.probability = 1 / ((2 : ℕ) : ℚ)) :=
  ⟨(normalize_sum_one_and_uniform_fallback _).1 (by simp),
   fun g hg => (normalize_sum_one_and_uniform_fallback _).2.1
     (by norm_num [probTotal]) g hg⟩

theorem engineInit_empty_eval :
    engineInit [] = DEFAULT_FUTURES.map (fun f => { f with probability := 1 / 5 }) := by
  have h5 : probTotal DEFAULT_FUTURES = 5 := by
    norm_num [probTotal, DEFAULT_FUTURES]
  have hinit : engineInit [] = normalizeFutures DEFAULT_FUTURES := rfl
  rw [hinit]
  unfold normalizeFutures
  rw [h5, if_neg (by norm_num)]
  norm_num
  intro a ha
  fin_cases ha <;> norm_num [DEFAULT_FUTURES]

/-- C7 counterexample: an engine constructed with a list of zero scenarios
does not end up degenerate with all probabilities zero; the empty list is
falsy in `futures or self.DEFAULT_FUTURES`, so construction falls back to
the five built-in defaults, normalized to probability 1/5 each. -/
theorem engineInit_empty_not_degenerate :
    (engineInit []).length = 5 ∧ ¬ (∀ g ∈ engineInit [], g.probability = 0) := by
  rw [engineInit_empty_eval]
  constructor
  · rfl
  · intro h
    have h0 := h { (DEFAULT_FUTURES.getD 0 { name := "", keywords := [], core_logic := "" })
        with probability := 1 / 5 }
      (by simp [DEFAULT_FUTURES])
    norm_num at h0

/-- C7 amended: construction with zero scenarios does not throw, but instead
of a degenerate all-zero engine it falls back to the five built-in default
scenarios at uniform probability 1/5; only the inner `_normalize`, applied
to an actually empty list, leaves no probabilities at all (vacuously
all-zero) without raising. -/
theorem engineInit_empty_defaults :
    (engineInit []).map (fun f => f.name) = DEFAULT_FUTURES.map (fun f => f.name) ∧
    (∀ g ∈ engineInit [], g.probability = 1 / 5) ∧
    normalizeFutures [] = [] := by
  rw [engineInit_empty_eval]
  refine ⟨by simp, ?_, rfl⟩
  intro g hg
  obtain ⟨f, _, rfl⟩ := List.mem_map.mp hg
  rfl

/-- C2: if any negation phrase built from the words of the lowercased
core_logic occurs as a substring of the lowercased argument, then
calculate_resonance returns exactly 0.2, whatever the keyword and
field-context hit counts are. -/
theorem resonance_contradiction_short_circuit (future : Future)
    (argument : String) (field_context : List String)
    (h : hasContradiction future (strLower argument) = true) :
    calculateResonance future argument field_context = 2/10 := by
  unfold calculateResonance
  rw [if_pos h]

/-- Witness for C2: the phrase "not technology" (from core_logic
"technology accelerates") occurs in the argument, so resonance is 0.2 even
though both keywords also hit. -/
theorem resonance_contradiction_short_circuit_witness :
    hasContradiction
      { name := "T", keywords := ["ai", "tech"],
        core_logic := "technology accelerates" }
      (strLower "AI is not technology") = true ∧
    calculateResonance
      { name := "T", keywords := ["ai", "tech"],
        core_logic := "technology accelerates" }
      "AI is not technology" ["ai lab"] = 2/10 :=
  ⟨by decide,
   resonance_contradiction_short_circuit _ _ _ (by decide)⟩

/-- C3: on the non-contradiction path calculate_resonance returns
min((1 + 0.25 * keyword_hits) * (1 + 0.15 * field_hits), 3.5), which in
particular always lies between 0 and 3.5. -/
theorem resonance_capped_non_contradiction (future : Future)
    (argument : String) (field_context : List String)
    (h : hasContradiction future (strLower argument) = false) :
    calculateResonance future argument field_context =
      min ((1 + (keywordHits future (strLower argument) : ℚ) * (25/100)) *
        (1 + (fieldHits future (field_context.map strLower) : ℚ) * (15/100)))
        (35/10) ∧
    0 ≤ calculateResonance future argument field_context ∧
    calculateResonance future argument field_context ≤ 35/10 := by
  unfold calculateResonance
  rw [if_neg (by simp [h])]
  refine ⟨rfl, ?_, min_le_right _ _⟩
  have hk : (0 : ℚ) ≤ (keywordHits future (strLower argument) : ℚ) := Nat.cast_nonneg _
  have hf : (0 : ℚ) ≤
      (fieldHits future (field_context.map strLower) : ℚ) := Nat.cast_nonneg _
  refine le_min (mul_nonneg ?_ ?_) (by norm_num) <;> nlinarith

/-- Witness for C3: one keyword hit and one field hit with no contradiction
give resonance min(1.25 * 1.15, 3.5) = 1.4375, inside the stated bounds. -/
theorem resonance_capped_non_contradiction_witness :
    0 ≤ calculateResonance
      { name := "T", keywords := ["ai"], core_logic := "technology accelerates" }
      "ai wins" ["ai lab"] ∧
    calculateResonance
      { name := "T", keywords := ["ai"], core_logic := "technology accelerates" }
      "ai wins" ["ai lab"] ≤ 35/10 :=
  ⟨(resonance_capped_non_contradiction _ _ _ (by decide)).2.1,
   (resonance_capped_non_contradiction _ _ _ (by decide)).2.2⟩

theorem accumulate_length (ws : List ℚ) : ∀ acc : ℚ, (accumulate acc ws).length = ws.length := by
  induction ws with
  | nil => intro acc; rfl
  | cons w ws ih => intro acc; simp [accumulate, ih]

theorem accumulate_getD (ws : List ℚ) :
    ∀ (acc : ℚ) (i : Nat), i < ws.length →
      (accumulate acc ws).getD i 0 = acc + (ws.take (i + 1)).sum := by
  induction ws with
  | nil => intro acc i h; simp at h
  | cons w ws ih =>
    intro acc i h
    cases i with
    | zero => simp [accumulate]
    | succ j =>
      have hj : j < ws.length := by simpa using h
      simp only [accumulate, List.getD_cons_succ, List.take_succ_cons, List.sum_cons]
      rw [ih (acc + w) j hj]
      ring

theorem cumTotal_eq_probTotal (futures : List Future) (h : futures ≠ []) :
    cumTotal futures = probTotal futures := by
  have hn : 0 < futures.length := List.length_pos.mpr h
  have hlen : futures.length - 1 < (futures.map (fun f => f.probability)).length := by
    rw [List.length_map]; omega
  unfold cumTotal cumWeights
  rw [accumulate_getD _ 0 _ hlen, zero_add]
  have hidx : futures.length - 1 + 1 = (futures.map (fun f => f.probability)).length := by
    rw [List.length_map]; omega
  rw [hidx, List.take_length]
  rfl

theorem bisectRight_fuel_spec (a : List ℚ) (x : ℚ) :
    ∀ (fuel lo hi : Nat), hi - lo ≤ fuel → lo ≤ hi →
      lo ≤ bisectRight a x lo hi ∧ bisectRight a x lo hi ≤ hi ∧
      (bisectRight a x lo hi < hi → x < a.getD (bisectRight a x lo hi) 0) ∧
      (lo < bisectRight a x lo hi → a.getD (bisectRight a x lo hi - 1) 0 ≤ x) := by
  intro fuel
  induction fuel with
  | zero =>
    intro lo hi hf hlh
    have heq : ¬ lo < hi := by omega
    rw [bisectRight, dif_neg heq]
    exact ⟨le_refl _, hlh, fun hc => absurd hlh (by omega), fun hc => absurd hc (by omega)⟩
  | succ n ih =>
    intro lo hi hf hlh
    by_cases hlt : lo < hi
    · rw [bisectRight, dif_pos hlt]
      by_cases hx : x < a.getD ((lo + hi) / 2) 0
      · rw [if_pos hx]
        obtain ⟨h1, h2, h3, h4⟩ := ih lo ((lo + hi) / 2) (by omega) (by omega)
        refine ⟨h1, by omega, ?_, h4⟩
        intro _
        rcases lt_or_eq_of_le h2 with hlt2 | heq2
        · exact h3 hlt2
        · rw [heq2]; exact hx
      · rw [if_neg hx]
        push_neg at hx
        obtain ⟨h1, h2, h3, h4⟩ := ih ((lo + hi) / 2 + 1) hi (by omega) (by omega)
        refine ⟨by omega, h2, h3, ?_⟩
        intro _
        rcases lt_or_eq_of_le h1 with hgt | heq1
        · exact h4 hgt
        · rw [← heq1]
          simpa using hx
    · rw [bisectRight, dif_neg hlt]
      exact ⟨le_refl _, hlh, fun hc => absurd hc (by omega), fun hc => absurd hc (by omega)⟩

theorem bisectRight_spec (a : List ℚ) (x : ℚ) (lo hi : Nat) (h : lo ≤ hi) :
    lo ≤ bisectRight a x lo hi ∧ bisectRight a x lo hi ≤ hi ∧
    (bisectRight a x lo hi < hi → x < a.getD (bisectRight a x lo hi) 0) ∧
    (lo < bisectRight a x lo hi → a.getD (bisectRight a x lo hi - 1) 0 ≤ x) :=
  bisectRight_fuel_spec a x (hi - lo) lo hi (le_refl _) h

/-- C10: whenever the scenario list is non-empty and its probabilities have
a positive total, collapse never selects a zero-probability scenario: for
every value of the uniform draw in the half-open unit interval, the
selected index carries a strictly positive weight. -/
theorem collapse_never_selects_zero_weight (futures : List Future) (r : ℚ)
    (hne : futures ≠ []) (hpos : 0 < probTotal futures)
    (hr0 : 0 ≤ r) (hr1 : r < 1) :
    ∃ i, collapseIndex futures r = Except.ok i ∧ i < futures.length ∧
      0 < (futures.map (fun f => f.probability)).getD i 0 := by
  have hn : 0 < futures.length := List.length_pos.mpr hne
  have htot : cumTotal futures = probTotal futures := cumTotal_eq_probTotal futures hne
  have hcpos : 0 < cumTotal futures := htot ▸ hpos
  unfold collapseIndex
  rw [if_neg (by omega), if_neg (not_le.mpr hcpos)]
  refine ⟨_, rfl, ?_, ?_⟩
  · have := (bisectRight_spec (cumWeights (futures.map (fun f => f.probability)))
      (r * cumTotal futures) 0 (futures.length - 1) (by omega)).2.1
    omega
  · obtain ⟨-, hle, hup, hlow⟩ := bisectRight_spec
      (cumWeights (futures.map (fun f => f.probability)))
      (r * cumTotal futures) 0 (futures.length - 1) (by omega)
    set ws := futures.map (fun f => f.probability) with hws
    set u := r * cumTotal futures with hu
    set idx := bisectRight (cumWeights ws) u 0 (futures.length - 1) with hidx
    have hwslen : ws.length = futures.length := List.length_map _ _
    have hidxlt : idx < ws.length := by omega
    have hu0 : 0 ≤ u := mul_nonneg hr0 (le_of_lt hcpos)
    have hu1 : u < cumTotal futures := mul_lt_of_lt_one_left hcpos hr1
    have hget : ∀ j, j < ws.length →
        (cumWeights ws).getD j 0 = (ws.take (j + 1)).sum := by
      intro j hj
      unfold cumWeights
      rw [accumulate_getD _ 0 _ hj, zero_add]
    have hupper : u < (ws.take (idx + 1)).sum := by
      rcases lt_or_eq_of_le hle with hlt | heq
      · rw [← hget idx hidxlt]
        exact hup hlt
      · have : cumTotal futures = (ws.take (idx + 1)).sum := by
          unfold cumTotal
          rw [← hws, hget (futures.length - 1) (by omega), heq]
        rw [← this]
        exact hu1
    have hlower : (ws.take idx).sum ≤ u := by
      rcases Nat.eq_zero_or_pos idx with h0 | hposidx
      · rw [h0]
        simpa using hu0
      · have := hlow hposidx
        rw [hget (idx - 1) (by omega)] at this
        have hsub : idx - 1 + 1 = idx := by omega
        rw [hsub] at this
        exact this
    have hsucc : (ws.take (idx + 1)).sum = (ws.take idx).sum + ws[idx] :=
      List.sum_take_succ ws idx hidxlt
    rw [List.getD_eq_getElem ws 0 hidxlt]
    rw [hsucc] at hupper
    linarith

/-- Witness for C10 at a two-scenario engine with weights 0 and 1 and
draw 0: the engine selects index 1, whose weight 1 is positive. -/
theorem collapse_never_selects_zero_weight_witness :
    ∃ i, collapseIndex
      [{ name := "A", keywords := ["a"], core_logic := "a", probability := 0 },
       { name := "B", keywords := ["b"], core_logic := "b", probability := 1 }] 0 =
      Except.ok i ∧
    i < 2 ∧
    0 < (([{ name := "A", keywords := ["a"], core_logic := "a", probability := 0 },
       { name := "B", keywords := ["b"], core_logic := "b", probability := 1 }] : List Future).map
      (fun f => f.probability)).getD i 0 :=
  collapse_never_selects_zero_weight _ 0 (by simp)
    (by norm_num [probTotal]) (le_refl 0) (by norm_num)

/-- C4 as the code actually behaves: with every scenario weight zero,
`random.choices` raises ValueError (total of weights must be greater than
zero) instead of falling back to uniform random selection; evaluated here
at a one-scenario engine with probability 0 and draw one half. -/
theorem collapse_all_zero_weights_raises :
    collapse [{ name := "Tech-Acceleration", keywords := ["ai"],
                core_logic := "technology accelerates", probability := 0 }] (1/2) =
    Except.error "ValueError: Total of weights must be greater than zero" := by
  have hc : cumTotal [{ name := "Tech-Acceleration", keywords := ["ai"],
                        core_logic := "technology accelerates", probability := 0 }] = 0 := by
    norm_num [cumTotal, cumWeights, accumulate]
  unfold collapse collapseIndex
  rw [if_neg (by norm_num), if_pos (by rw [hc])]
  rfl

theorem matchedPairs_mem (future : Future) (headlines : List String)
    (p : Nat × String) (hp : p ∈ matchedPairs future headlines) :
    p.2 ∈ headlines ∧ p.1 = headlineHits future p.2 ∧ 1 ≤ headlineHits future p.2 := by
  obtain ⟨h, hh, hsome⟩ := List.mem_filterMap.mp hp
  by_cases hc : 1 ≤ headlineHits future h
  · rw [if_pos hc] at hsome
    obtain rfl := Option.some.inj hsome
    exact ⟨hh, rfl, hc⟩
  · rw [if_neg hc] at hsome
    exact absurd hsome (by simp)

/-- C9 counterexample: with keywords consisting of the single word "ai" and
the two headlines "ai alpha" and "ai beta" (both exactly one hit, supplied
in that order), match_headlines returns them in the order
["ai beta", "ai alpha"]: the Python tuple sort breaks hit-count ties by
descending string comparison, not by input order as the claim states. -/
theorem matchHeadlines_tie_not_input_order :
    matchHeadlines { name := "T", keywords := ["ai"], core_logic := "x" }
      ["ai alpha", "ai beta"] = ["ai beta", "ai alpha"] ∧
    matchHeadlines { name := "T", keywords := ["ai"], core_logic := "x" }
      ["ai alpha", "ai beta"] ≠ ["ai alpha", "ai beta"] := by
  constructor
  · decide
  · decide

/-- C9 amended: the headline matching used by get_state returns at most
three headlines, each returned headline comes from the input list and has
at least one case-insensitive keyword substring hit, and the result is
ranked by hit count descending with ties in hit count broken by descending
string comparison of the headlines (Python tuple sort), not by input
order. -/
theorem matchHeadlines_top3_ranked (future : Future) (headlines : List String) :
    (matchHeadlines future headlines).length ≤ 3 ∧
    (∀ h ∈ matchHeadlines future headlines,
      h ∈ headlines ∧ 1 ≤ headlineHits future h) ∧
    (matchHeadlines future headlines).Pairwise (fun h1 h2 =>
      headlineHits future h2 < headlineHits future h1 ∨
      (headlineHits future h1 = headlineHits future h2 ∧ strLt h1 h2 = false)) := by
  unfold matchHeadlines
  by_cases he : headlines.isEmpty
  · rw [if_pos he]
    exact ⟨by simp, by simp, List.Pairwise.nil⟩
  · rw [if_neg he]
    set matched := matchedPairs future headlines with hm
    set sorted := matched.insertionSort (fun a b => tupleGe a b = true) with hs
    have hsorted : sorted.Pairwise (fun a b => tupleGe a b = true) :=
      List.sorted_insertionSort _ matched
    have hperm : sorted.Perm matched := List.perm_insertionSort _ matched
    have hmemsorted : ∀ p ∈ sorted,
        p.2 ∈ headlines ∧ p.1 = headlineHits future p.2 ∧
        1 ≤ headlineHits future p.2 := by
      intro p hp
      exact matchedPairs_mem future headlines p (hperm.mem_iff.mp hp)
    have hmemtake : ∀ p ∈ sorted.take 3,
        p.2 ∈ headlines ∧ p.1 = headlineHits future p.2 ∧
        1 ≤ headlineHits future p.2 := by
      intro p hp
      exact hmemsorted p ((List.take_sublist 3 sorted).subset hp)
    refine ⟨?_, ?_, ?_⟩
    · rw [List.length_map, List.length_take]
      exact min_le_left _ _
    · intro h hh
      obtain ⟨p, hp, rfl⟩ := List.mem_map.mp hh
      exact ⟨(hmemtake p hp).1, (hmemtake p hp).2.2⟩
    · rw [List.pairwise_map]
      have htakep : (sorted.take 3).Pairwise (fun a b => tupleGe a b = true) :=
        List.Pairwise.sublist (List.take_sublist 3 sorted) hsorted
      refine htakep.imp_of_mem ?_
      intro a b ha hb hge
      obtain ⟨-, ha2, -⟩ := hmemtake a ha
      obtain ⟨-, hb2, -⟩ := hmemtake b hb
      simp only [tupleGe, Bool.or_eq_true, decide_eq_true_eq, Bool.and_eq_true,
        beq_iff_eq, Bool.not_eq_true', decide_eq_false_iff_not] at hge
      rcases hge with h1 | ⟨h1, h2⟩
      · exact Or.inl (ha2 ▸ hb2 ▸ h1)
      · exact Or.inr ⟨ha2 ▸ hb2 ▸ h1, h2⟩

theorem normalizeFutures_keywords (fs : List Future) :
    ∀ g ∈ normalizeFutures fs, ∃ f ∈ fs, g.keywords = f.keywords := by
  intro g hg
  unfold normalizeFutures at hg
  split at hg <;>
  · obtain ⟨f, hf, rfl⟩ := List.mem_map.mp hg
    exact ⟨f, hf, rfl⟩

theorem applyArgument_props (fs : List Future) (a : String) (fc : List String)
    (noise : ℚ) (draws : Nat → ℚ) (hne : fs ≠ []) :
    applyArgument fs a fc noise draws ≠ [] ∧
    probTotal (applyArgument fs a fc noise draws) = 1 ∧
    ∀ g ∈ applyArgument fs a fc noise draws, ∃ f ∈ fs, g.keywords = f.keywords := by
  have hmapne : fs.mapIdx (fun i f => { f with probability := f.probability *
      (calculateResonance f a fc * (1 + pyUniform (-noise) noise (draws i))) }) ≠ [] := by
    apply List.length_pos.mp
    rw [List.length_mapIdx]
    exact List.length_pos.mpr hne
  refine ⟨?_, ?_, ?_⟩
  · apply List.length_pos.mp
    unfold applyArgument
    rw [normalizeFutures_length, List.length_mapIdx]
    exact List.length_pos.mpr hne
  · unfold applyArgument
    exact normalizeFutures_sum _ hmapne
  · intro g hg
    unfold applyArgument at hg
    obtain ⟨f1, hf1, hk1⟩ := normalizeFutures_keywords _ g hg
    obtain ⟨j, hj, hjeq⟩ := List.mem_mapIdx.mp hf1
    refine ⟨fs[j], List.getElem_mem _, ?_⟩
    rw [hk1, ← hjeq]

theorem collapseIndex_ok (futures : List Future) (r : ℚ)
    (hne : futures ≠ []) (hpos : 0 < probTotal futures) :
    ∃ i, collapseIndex futures r = Except.ok i ∧ i < futures.length := by
  have hn : 0 < futures.length := List.length_pos.mpr hne
  have hcpos : 0 < cumTotal futures := (cumTotal_eq_probTotal futures hne) ▸ hpos
  unfold collapseIndex
  rw [if_neg (by omega), if_neg (not_le.mpr hcpos)]
  refine ⟨_, rfl, ?_⟩
  have := (bisectRight_spec (cumWeights (futures.map (fun f => f.probability)))
    (r * cumTotal futures) 0 (futures.length - 1) (by omega)).2.1
  omega

theorem step_ok (st : EngineState) (argument : Option String)
    (field_context : List String) (rnd : StepRandom)
    (hne : st.futures ≠ []) (hkw : ∀ f ∈ st.futures, f.keywords ≠ [])
    (hsum : pyTruthy argument = true ∨ probTotal st.futures = 1) :
    ∃ snap st2, step st argument field_context rnd = some (snap, st2) ∧
      st2.futures ≠ [] ∧ (∀ f ∈ st2.futures, f.keywords ≠ []) ∧
      probTotal st2.futures = 1 ∧
      snap.argument = pyOrString argument "(internal feedback only)" ∧
      st2.iteration = st.iteration + 1 := by
  have hfs1 : stepFutures st argument field_context rnd ≠ [] ∧
      0 < probTotal (stepFutures st argument field_context rnd) ∧
      ∀ g ∈ stepFutures st argument field_context rnd, g.keywords ≠ [] := by
    unfold stepFutures
    by_cases ht : pyTruthy argument = true
    · rw [if_pos ht]
      obtain ⟨h1, h2, h3⟩ := applyArgument_props st.futures (pyOrString argument "")
        field_context (5/100) rnd.argDraws hne
      refine ⟨h1, by rw [h2]; norm_num, ?_⟩
      intro g hg
      obtain ⟨f, hf, hk⟩ := h3 g hg
      rw [hk]
      exact hkw f hf
    · rw [if_neg ht]
      rcases hsum with h | h
      · exact absurd h ht
      · exact ⟨hne, by rw [h]; norm_num, hkw⟩
  obtain ⟨hfsne, hfspos, hfskw⟩ := hfs1
  obtain ⟨i, hok, hilt⟩ := collapseIndex_ok (stepFutures st argument field_context rnd)
    rnd.collapseDraw hfsne hfspos
  have hcol : collapse (stepFutures st argument field_context rnd) rnd.collapseDraw =
      Except.ok ((stepFutures st argument field_context rnd).getD i dummyFuture) := by
    unfold collapse
    rw [hok]
    rfl
  have hrealmem : (stepFutures st argument field_context rnd).getD i dummyFuture ∈
      stepFutures st argument field_context rnd := by
    rw [List.getD_eq_getElem _ _ hilt]
    exact List.getElem_mem _
  have hfkw : ((stepFutures st argument field_context rnd).getD i dummyFuture).keywords ≠ [] :=
    hfskw _ hrealmem
  have hfbex : ∃ fb, generateFeedback
      ((stepFutures st argument field_context rnd).getD i dummyFuture)
      rnd.kwChoice rnd.tmplChoice = some fb := by
    unfold generateFeedback
    rw [if_neg (by simpa [List.isEmpty_iff] using hfkw)]
    exact ⟨_, rfl⟩
  obtain ⟨fb, hfb⟩ := hfbex
  obtain ⟨h2ne, h2sum, h2kwmem⟩ := applyArgument_props
    (stepFutures st argument field_context rnd) fb field_context (8/100) rnd.fbDraws hfsne
  refine ⟨stepSnapshot st argument field_context rnd
      ((stepFutures st argument field_context rnd).getD i dummyFuture) fb,
    { futures := applyArgument (stepFutures st argument field_context rnd) fb field_context
        (8/100) rnd.fbDraws,
      history := st.history ++ [stepSnapshot st argument field_context rnd
        ((stepFutures st argument field_context rnd).getD i dummyFuture) fb],
      iteration := st.iteration + 1 }, ?_, h2ne, ?_, h2sum, rfl, rfl⟩
  · unfold step
    rw [hcol]
    simp only [exceptToOption, Option.some_bind]
    rw [hfb]
    rfl
  · intro g hg
    obtain ⟨f, hf, hk⟩ := h2kwmem g hg
    rw [hk]
    exact hfskw f hf

theorem runAux_feedback_only (field_context : List String) (rnds : Nat → StepRandom) :
    ∀ (n : Nat) (st : EngineState) (i : Nat),
      st.futures ≠ [] → (∀ f ∈ st.futures, f.keywords ≠ []) →
      probTotal st.futures = 1 →
      ∃ snaps stf, runAux field_context rnds st none i n = some (snaps, stf) ∧
        snaps.length = n ∧
        ∀ j, j < n → (snaps.getD j dummySnapshot).argument = "(internal feedback only)" := by
  intro n
  induction n with
  | zero =>
    intro st i h1 h2 h3
    exact ⟨[], st, rfl, rfl, fun j hj => absurd hj (by omega)⟩
  | succ n ih =>
    intro st i h1 h2 h3
    obtain ⟨snap, st2, hstep, hne2, hkw2, hsum2, hargsnap, -⟩ :=
      step_ok st none field_context (rnds i) h1 h2 (Or.inr h3)
    obtain ⟨snaps, stf, hrun, hlen, hsent⟩ := ih st2 (i + 1) hne2 hkw2 hsum2
    refine ⟨snap :: snaps, stf, ?_, by simp [hlen], ?_⟩
    · rw [runAux, hstep]
      dsimp only
      rw [hrun]
    · intro j hj
      cases j with
      | zero =>
        rw [List.getD_cons_zero, hargsnap]
        rfl
      | succ j =>
        rw [List.getD_cons_succ]
        exact hsent j (by omega)

/-- C8: for a non-empty argument and at least one step, run on a healthy
engine state (non-empty futures, non-empty keyword lists) returns exactly
`steps` snapshots for every possible sequence of random draws; the first
snapshot records the supplied argument, and every later snapshot records
the feedback-only sentinel, because only the first call to step receives
the external argument. -/
theorem run_snapshot_count_and_sentinel (st : EngineState) (argument : String)
    (steps : Nat) (field_context : List String) (rnds : Nat → StepRandom)
    (hne : st.futures ≠ []) (hkw : ∀ f ∈ st.futures, f.keywords ≠ [])
    (harg : argument ≠ "") (hsteps : 1 ≤ steps) :
    ∃ snaps stf, runEngine st argument steps field_context rnds = some (snaps, stf) ∧
      snaps.length = steps ∧
      (snaps.getD 0 dummySnapshot).argument = argument ∧
      ∀ j, 1 ≤ j → j < steps →
        (snaps.getD j dummySnapshot).argument = "(internal feedback only)" := by
  obtain ⟨n, rfl⟩ : ∃ n, steps = n + 1 := ⟨steps - 1, by omega⟩
  obtain ⟨snap, st2, hstep, hne2, hkw2, hsum2, hargsnap, -⟩ :=
    step_ok st (some argument) field_context (rnds 0) hne hkw
      (Or.inl (by simp [pyTruthy, harg]))
  obtain ⟨snaps, stf, hrun, hlen, hsent⟩ :=
    runAux_feedback_only field_context rnds n st2 1 hne2 hkw2 hsum2
  refine ⟨snap :: snaps, stf, ?_, by simp [hlen], ?_, ?_⟩
  · unfold runEngine
    rw [runAux, hstep]
    dsimp only
    rw [hrun]
  · rw [List.getD_cons_zero, hargsnap]
    simp [pyOrString, harg]
  · intro j hj1 hj2
    obtain ⟨j2, rfl⟩ : ∃ j2, j = j2 + 1 := ⟨j - 1, by omega⟩
    rw [List.getD_cons_succ]
    exact hsent j2 (by omega)

/-- Witness for C8: a one-scenario engine, the argument "go alpha" and two
steps, with all draws zero. -/
theorem run_snapshot_count_and_sentinel_witness :
    ∃ snaps stf, runEngine
      { futures := [{ name := "A", keywords := ["alpha"], core_logic := "alpha grows" }],
        history := [], iteration := 0 } "go alpha" 2 []
      (fun _ => { argDraws := fun _ => 0, collapseDraw := 0, kwChoice := 0,
                  tmplChoice := 0, fbDraws := fun _ => 0 }) = some (snaps, stf) ∧
      snaps.length = 2 ∧
      (snaps.getD 0 dummySnapshot).argument = "go alpha" ∧
      ∀ j, 1 ≤ j → j < 2 →
        (snaps.getD j dummySnapshot).argument = "(internal feedback only)" :=
  run_snapshot_count_and_sentinel _ _ _ _ _ (by simp) (by simp) (by simp) (by omega)


/-- C5 as the code actually behaves: the staged `ForesightEngine.run` has
no `temperature` parameter and `step` hard-codes the noise amplitudes 0.05
and 0.08, so the call in `foresight_app.simulate`, which always passes the
keyword `temperature=`, raises TypeError (got an unexpected keyword
argument); the app-side clamp `max(0.1, min(temperature, 2.0))` is real but
its value can never reach the engine. Evaluated at the concrete call made
by simulate and at concrete clamp inputs. -/
theorem run_temperature_kwarg_type_error :
    runCallUnexpectedKeywords simulateRunCallKeywords = ["temperature"] ∧
    clampTemperature (1/100) = 1/10 ∧ clampTemperature 1 = 1 ∧
    clampTemperature 3 = 2 := by
  refine ⟨by decide, ?_, ?_, ?_⟩
  · unfold clampTemperature
    rw [min_eq_left (by norm_num), max_eq_left (by norm_num)]
  · unfold clampTemperature
    rw [min_eq_left (by norm_num), max_eq_right (by norm_num)]
  · unfold clampTemperature
    rw [min_eq_right (by norm_num), max_eq_right (by norm_num)]

/-- C6 as the code actually behaves: the staged `ForesightEngine` class
body defines no `battle` method (its methods are exactly the twelve listed
in `engineMethods`), so the attribute lookup in the call
`engine.battle(...)` made by the Flask route `foresight_app.battle` raises
AttributeError; the engine exposes `step` and `run` but no battle
operation. -/
theorem engine_battle_attribute_error :
    engineMethods.contains battleCallAttribute = false ∧
    engineMethods.contains "step" = true ∧
    engineMethods.contains "run" = true := by
  decide
